import Mathlib

/-!
Shallow embedding of the non-destructive inline revision system implemented in
`src/utils/revisions.ts`, together with proofs of the specified properties.

Modelling conventions:
* JavaScript strings become `List Char`; string positions become `Int`
  (JavaScript numbers restricted to integers, which is all the claims quantify over).
* `String.prototype.substring` is modelled by `jsSubstring`, including its
  clamping of arguments to `[0, length]` and swapping when the start exceeds the end.
* `generateRevisionId` uses wall-clock time and randomness in the source; it is
  modelled as a fresh-id supply: a `Nat` counter threaded through the functions
  that generate ids.  No claim depends on the concrete shape of an id.
* `Array.prototype.sort` with a numeric comparator is a stable sort; it is
  modelled by the stable `List.mergeSort` with the corresponding boolean order.
-/

namespace RevisionSystem

/-- Text content: a JavaScript string modelled as a list of characters. -/
abbrev Str := List Char

/-- The `type` field of a `TextSpan`: `'original' | 'deleted' | 'inserted' | 'unchanged'`. -/
inductive SpanType where
  | original
  | deleted
  | inserted
  | unchanged
deriving DecidableEq

/-- The `status` field of a `Revision`: `'pending' | 'accepted' | 'rejected'`. -/
inductive RevStatus where
  | pending
  | accepted
  | rejected
deriving DecidableEq

/-- The `TextSpan` interface of `revisions.ts`. -/
structure TextSpan where
  id : Nat
  type : SpanType
  text : Str
  startPos : Int
  endPos : Int
deriving DecidableEq

/-- The `Revision` interface of `revisions.ts`. -/
structure Revision where
  id : Nat
  originalSpan : TextSpan
  newSpan : Option TextSpan
  status : RevStatus
  timestamp : Int
deriving DecidableEq

/-- The `DocumentWithRevisions` interface of `revisions.ts`. -/
structure DocumentWithRevisions where
  baseContent : Str
  revisions : List Revision
  activeRevisionId : Option Nat
deriving DecidableEq

/-- Clamping of a JavaScript `substring` argument to the interval `[0, len]`. -/
def jsClamp (len x : Int) : Int :=
  min (max x 0) len

/-- JavaScript `s.substring(a, b)`: both arguments are clamped to `[0, s.length]`
and swapped when the first exceeds the second; the characters of the half-open
index interval between them are returned. -/
def jsSubstring (s : Str) (a b : Int) : Str :=
  (s.drop (min (jsClamp (s.length : Int) a) (jsClamp (s.length : Int) b)).toNat).take
    ((max (jsClamp (s.length : Int) a) (jsClamp (s.length : Int) b) -
      min (jsClamp (s.length : Int) a) (jsClamp (s.length : Int) b)).toNat)

/-- JavaScript one-argument `s.substring(a)`, equivalent to `s.substring(a, s.length)`. -/
def jsSubstringFrom (s : Str) (a : Int) : Str :=
  jsSubstring s a (s.length : Int)

/-- The `createRevision(content, startPos, endPos, newText)` function.
`gen` models the fresh-id supply for the three `generateRevisionId()` calls and
`now` the `Date.now()` timestamp. -/
def createRevision (gen : Nat) (content : Str) (startPos endPos : Int)
    (newText : Str) (now : Int) : Revision :=
  let originalText := jsSubstring content startPos endPos
  { id := gen
    originalSpan :=
      { id := gen + 1
        type := SpanType.deleted
        text := originalText
        startPos := startPos
        endPos := endPos }
    newSpan :=
      if newText = [] then none
      else some
        { id := gen + 2
          type := SpanType.inserted
          text := newText
          startPos := startPos
          endPos := startPos }
    status := RevStatus.pending
    timestamp := now }

/-- Ascending comparison on `originalSpan.startPos`, the key of the JavaScript
comparator `(a, b) => a.originalSpan.startPos - b.originalSpan.startPos`. -/
def startLE (a b : Revision) : Prop :=
  a.originalSpan.startPos ≤ b.originalSpan.startPos

/-- Descending comparison on `originalSpan.startPos`, the key of the JavaScript
comparator `(a, b) => b.originalSpan.startPos - a.originalSpan.startPos`. -/
def startGE (a b : Revision) : Prop :=
  b.originalSpan.startPos ≤ a.originalSpan.startPos

instance : DecidableRel startLE := fun a b =>
  inferInstanceAs (Decidable (a.originalSpan.startPos ≤ b.originalSpan.startPos))

instance : DecidableRel startGE := fun a b =>
  inferInstanceAs (Decidable (b.originalSpan.startPos ≤ a.originalSpan.startPos))

/-- The ascending stable sort `[...revisions].sort((a, b) => a.originalSpan.startPos - b.originalSpan.startPos)`.
JavaScript `Array.prototype.sort` is a stable sort, and stable sorting by a
total preorder on keys has a unique result, so the stable `List.insertionSort`
models it exactly. -/
def sortByStartAsc (revisions : List Revision) : List Revision :=
  revisions.insertionSort startLE

/-- The descending stable sort `.sort((a, b) => b.originalSpan.startPos - a.originalSpan.startPos)`. -/
def sortByStartDesc (revisions : List Revision) : List Revision :=
  revisions.insertionSort startGE

/-- The `unchanged` span that `buildTextSpans` pushes for the base text lying
between the cursor `c` and the next revision start `s`, when that gap is
non-empty. -/
def unchangedBefore (baseContent : Str) (c s : Int) (n : Nat) : List TextSpan :=
  if c < s then
    [{ id := n
       type := SpanType.unchanged
       text := jsSubstring baseContent c s
       startPos := c
       endPos := s }]
  else []

/-- The loop of `buildTextSpans`, walking the sorted revisions with the cursor
`currentPos` and the fresh-id counter `n`; the trailing `unchanged` span that
the source emits after the loop appears here in the nil case. -/
def buildSpansGo (baseContent : Str) : List Revision → Int → Nat → List TextSpan
  | [], currentPos, n =>
    if currentPos < (baseContent.length : Int) then
      [{ id := n
         type := SpanType.unchanged
         text := jsSubstringFrom baseContent currentPos
         startPos := currentPos
         endPos := (baseContent.length : Int) }]
    else []
  | revision :: rest, currentPos, n =>
    if revision.status = RevStatus.rejected then
      buildSpansGo baseContent rest currentPos n
    else if revision.status = RevStatus.accepted then
      unchangedBefore baseContent currentPos revision.originalSpan.startPos n ++
        (match revision.newSpan with
         | some ns => [{ ns with type := SpanType.unchanged }]
         | none => []) ++
        buildSpansGo baseContent rest revision.originalSpan.endPos
          (n + (unchangedBefore baseContent currentPos revision.originalSpan.startPos n).length)
    else
      unchangedBefore baseContent currentPos revision.originalSpan.startPos n ++
        ({ revision.originalSpan with type := SpanType.deleted } ::
          (match revision.newSpan with
           | some ns => [{ ns with type := SpanType.inserted }]
           | none => [])) ++
        buildSpansGo baseContent rest revision.originalSpan.endPos
          (n + (unchangedBefore baseContent currentPos revision.originalSpan.startPos n).length)

/-- The `buildTextSpans(baseContent, revisions)` function. -/
def buildTextSpans (baseContent : Str) (revisions : List Revision) : List TextSpan :=
  buildSpansGo baseContent (sortByStartAsc revisions) 0 0

/-- The replacement text of a revision, `revision.newSpan?.text || ''`. -/
def revisionReplacement (r : Revision) : Str :=
  match r.newSpan with
  | some ns => ns.text
  | none => []

/-- The private `applyAcceptedRevisions(baseContent, revisions)` function:
splice every accepted revision into the text in descending `startPos` order. -/
def applyAcceptedRevisions (baseContent : Str) (revisions : List Revision) : Str :=
  (sortByStartDesc (revisions.filter (fun r => decide (r.status = RevStatus.accepted)))).foldl
    (fun result revision =>
      jsSubstring result 0 revision.originalSpan.startPos ++
        revisionReplacement revision ++
        jsSubstringFrom result revision.originalSpan.endPos)
    baseContent

/-- The `acceptRevision(doc, revisionId)` function. -/
def acceptRevision (doc : DocumentWithRevisions) (revisionId : Nat) :
    DocumentWithRevisions :=
  match doc.revisions.find? (fun r => decide (r.id = revisionId)) with
  | none => doc
  | some _ =>
    let updatedRevisions := doc.revisions.map (fun r =>
      if r.id = revisionId then { r with status := RevStatus.accepted } else r)
    let baseContent := applyAcceptedRevisions doc.baseContent updatedRevisions
    { doc with
      baseContent := baseContent
      revisions := updatedRevisions.filter (fun r => decide (r.status ≠ RevStatus.accepted)) }

/-- The `rejectRevision(doc, revisionId)` function. -/
def rejectRevision (doc : DocumentWithRevisions) (revisionId : Nat) :
    DocumentWithRevisions :=
  { doc with revisions := doc.revisions.filter (fun r => decide (r.id ≠ revisionId)) }

/-- The `getFinalContent(doc)` function. -/
def getFinalContent (doc : DocumentWithRevisions) : Str :=
  ((buildTextSpans doc.baseContent doc.revisions).filter
    (fun span => decide (span.type ≠ SpanType.deleted))).map (fun span => span.text)
    |>.flatten

/-- The rendering of one span inside `getFullContextContent`. -/
def renderContextSpan (span : TextSpan) : Str :=
  if span.type = SpanType.deleted then
    "[DELETED: ".toList ++ span.text ++ "]".toList
  else if span.type = SpanType.inserted then
    "[INSERTED: ".toList ++ span.text ++ "]".toList
  else span.text

/-- The `getFullContextContent(doc)` function. -/
def getFullContextContent (doc : DocumentWithRevisions) : Str :=
  ((buildTextSpans doc.baseContent doc.revisions).map renderContextSpan).flatten

/-- The `acceptAllRevisions(doc)` function: a fold of `acceptRevision` over the
document's revision list, restricted to the entries that were pending. -/
def acceptAllRevisions (doc : DocumentWithRevisions) : DocumentWithRevisions :=
  doc.revisions.foldl
    (fun result revision =>
      if revision.status = RevStatus.pending then acceptRevision result revision.id
      else result)
    doc

/-- The `rejectAllRevisions(doc)` function. -/
def rejectAllRevisions (doc : DocumentWithRevisions) : DocumentWithRevisions :=
  { doc with revisions := doc.revisions.filter (fun r => decide (r.status ≠ RevStatus.pending)) }

/-- Inserting a freshly created revision, as the editor does
(`revisions: [...revisionDoc.revisions, revision]` in `DocumentEditor.tsx`). -/
def insertRevision (doc : DocumentWithRevisions) (r : Revision) :
    DocumentWithRevisions :=
  { doc with revisions := doc.revisions ++ [r] }

/-- Document states reachable from an empty-revision initial state by inserting
created revisions and by the four reconciliation operations. -/
inductive Reachable : DocumentWithRevisions → Prop where
  | init (T : Str) (act : Option Nat) :
      Reachable { baseContent := T, revisions := [], activeRevisionId := act }
  | insert (d : DocumentWithRevisions) (gen : Nat) (content : Str) (s e : Int)
      (newText : Str) (now : Int) (h : Reachable d) :
      Reachable (insertRevision d (createRevision gen content s e newText now))
  | accept (d : DocumentWithRevisions) (rid : Nat) (h : Reachable d) :
      Reachable (acceptRevision d rid)
  | reject (d : DocumentWithRevisions) (rid : Nat) (h : Reachable d) :
      Reachable (rejectRevision d rid)
  | acceptAll (d : DocumentWithRevisions) (h : Reachable d) :
      Reachable (acceptAllRevisions d)
  | rejectAll (d : DocumentWithRevisions) (h : Reachable d) :
      Reachable (rejectAllRevisions d)

/-- Every revision held by the document is pending. -/
def allPending (d : DocumentWithRevisions) : Prop :=
  ∀ r ∈ d.revisions, r.status = RevStatus.pending

/-- Specification-side definition for C1: folding `acceptRevision` over the
document's revisions one at a time in descending `startPos` order. -/
def sequentialAcceptDesc (doc : DocumentWithRevisions) : DocumentWithRevisions :=
  (sortByStartDesc doc.revisions).foldl
    (fun result revision => acceptRevision result revision.id) doc

/-- Containment of a contiguous segment inside a character list. -/
def containsSeg (pat s : Str) : Prop :=
  ∃ u v, s = u ++ pat ++ v

/-- Coverage of base-text position `p` by a span of kind `unchanged` or
`deleted`, through the span's `[startPos, endPos)` range. -/
def covers (p : Int) (sp : TextSpan) : Prop :=
  (sp.type = SpanType.unchanged ∨ sp.type = SpanType.deleted) ∧
    sp.startPos ≤ p ∧ p < sp.endPos

instance (p : Int) (sp : TextSpan) : Decidable (covers p sp) := by
  unfold covers
  infer_instance

/-- Concrete base text shared by several witnesses. -/
def catText : Str := "The cat sat.".toList

/-- A pending revision replacing `[4,7)` (the word "cat") with "dog". -/
def revDog : Revision := createRevision 0 catText 4 7 "dog".toList 0

/-- A pending revision replacing `[8,11)` (the word "sat") with "purred". -/
def revPurred : Revision := createRevision 10 catText 8 11 "purred".toList 0

/-- A concrete document holding both pending revisions. -/
def docTwo : DocumentWithRevisions :=
  { baseContent := catText, revisions := [revDog, revPurred], activeRevisionId := none }

/-- Base text of the spec's concrete scenario 4. -/
def mergeText : Str := "abc defg hij".toList

/-- A pending revision replacing `[0,3)` with "Xx". -/
def revXx : Revision := createRevision 0 mergeText 0 3 "Xx".toList 0

/-- A pending revision replacing `[8,11)` with "Yy". -/
def revYy : Revision := createRevision 10 mergeText 8 11 "Yy".toList 0

/-- The scenario-4 document, revisions listed in creation (ascending) order. -/
def docMerge : DocumentWithRevisions :=
  { baseContent := mergeText, revisions := [revXx, revYy], activeRevisionId := none }

/-- The same document with its revision list in descending `startPos` order. -/
def docMergeDesc : DocumentWithRevisions :=
  { baseContent := mergeText, revisions := [revYy, revXx], activeRevisionId := none }

/-- An already-accepted revision over `[0,1)` of "ab" with replacement "X",
exercising the accepted branch of the span builder. -/
def revAcc : Revision :=
  { id := 0
    originalSpan :=
      { id := 1, type := SpanType.deleted, text := "a".toList, startPos := 0, endPos := 1 }
    newSpan :=
      some { id := 2, type := SpanType.inserted, text := "X".toList, startPos := 0, endPos := 0 }
    status := RevStatus.accepted
    timestamp := 0 }

/-! ### Basic facts about the JavaScript substring model -/

theorem jsClamp_of_mem (len x : Int) (h0 : 0 ≤ x) (hl : x ≤ len) :
    jsClamp len x = x := by
  unfold jsClamp
  rw [max_eq_left h0, min_eq_left hl]

theorem jsSubstring_of_le (s : Str) (a b : Int) (h0 : 0 ≤ a) (hab : a ≤ b)
    (hb : b ≤ (s.length : Int)) :
    jsSubstring s a b = (s.drop a.toNat).take (b - a).toNat := by
  have hb0 : 0 ≤ b := le_trans h0 hab
  have hal : a ≤ (s.length : Int) := le_trans hab hb
  unfold jsSubstring
  rw [jsClamp_of_mem _ _ h0 hal, jsClamp_of_mem _ _ hb0 hb,
    min_eq_left hab, max_eq_right hab]

theorem jsSubstring_zero_left (s : Str) (b : Int) (h0 : 0 ≤ b)
    (hb : b ≤ (s.length : Int)) :
    jsSubstring s 0 b = s.take b.toNat := by
  rw [jsSubstring_of_le s 0 b le_rfl h0 hb]
  simp

theorem jsSubstringFrom_eq_drop (s : Str) (a : Int) (h0 : 0 ≤ a)
    (ha : a ≤ (s.length : Int)) :
    jsSubstringFrom s a = s.drop a.toNat := by
  unfold jsSubstringFrom
  rw [jsSubstring_of_le s a _ h0 ha le_rfl]
  apply List.take_of_length_le
  rw [List.length_drop]
  omega

theorem jsSubstringFrom_zero (s : Str) : jsSubstringFrom s 0 = s := by
  rw [jsSubstringFrom_eq_drop s 0 le_rfl (Int.natCast_nonneg _)]
  simp

/-! ### The span builder with no revisions -/

theorem buildTextSpans_nil (T : Str) :
    buildTextSpans T [] =
      if 0 < (T.length : Int) then
        [{ id := 0
           type := SpanType.unchanged
           text := T
           startPos := 0
           endPos := (T.length : Int) }]
      else [] := by
  have h : buildTextSpans T [] = buildSpansGo T [] 0 0 := rfl
  rw [h]
  unfold buildSpansGo
  rw [jsSubstringFrom_zero]

/-- C5: with an empty revision list, `getFinalContent` returns the base text
unchanged, the emitted spans concatenate back to the base text, and the empty
document yields no spans at all. -/
theorem roundTrip_noRevisions (T : Str) :
    getFinalContent { baseContent := T, revisions := [], activeRevisionId := none } = T ∧
    ((buildTextSpans T []).map (fun span => span.text)).flatten = T ∧
    buildTextSpans ([] : Str) [] = [] := by
  refine ⟨?_, ?_, ?_⟩
  · by_cases h : 0 < (T.length : Int)
    · simp [getFinalContent, buildTextSpans_nil, h]
    · have hT : T = [] := by
        have : T.length = 0 := by omega
        exact List.eq_nil_of_length_eq_zero this
      simp [getFinalContent, buildTextSpans_nil, hT]
  · by_cases h : 0 < (T.length : Int)
    · simp [buildTextSpans_nil, h]
    · have hT : T = [] := by
        have : T.length = 0 := by omega
        exact List.eq_nil_of_length_eq_zero this
      simp [buildTextSpans_nil, hT]
  · simp [buildTextSpans_nil]

/-! ### Accepting a single revision -/

theorem revisionReplacement_setStatus (r : Revision) (st : RevStatus) :
    revisionReplacement { r with status := st } = revisionReplacement r := rfl

/-- C2: accepting the unique pending revision of a document splices the
replacement text over the revision's `[s, e)` range of the base text and leaves
an empty revision list. -/
theorem acceptRevision_single_splice (T : Str) (r : Revision) (act : Option Nat)
    (s e : Int) (N : Str)
    (hs : r.originalSpan.startPos = s) (he : r.originalSpan.endPos = e)
    (hst : r.status = RevStatus.pending) (hN : revisionReplacement r = N)
    (h0 : 0 ≤ s) (hse : s ≤ e) (hel : e ≤ (T.length : Int)) :
    (acceptRevision { baseContent := T, revisions := [r], activeRevisionId := act }
        r.id).baseContent = T.take s.toNat ++ N ++ T.drop e.toNat ∧
    (acceptRevision { baseContent := T, revisions := [r], activeRevisionId := act }
        r.id).revisions = [] := by
  have hstep :
      acceptRevision { baseContent := T, revisions := [r], activeRevisionId := act } r.id =
        { baseContent := applyAcceptedRevisions T [{ r with status := RevStatus.accepted }]
          revisions := []
          activeRevisionId := act } := by
    simp [acceptRevision]
  have happly :
      applyAcceptedRevisions T [{ r with status := RevStatus.accepted }] =
        jsSubstring T 0 s ++ N ++ jsSubstringFrom T e := by
    simp [applyAcceptedRevisions, sortByStartDesc, List.insertionSort, List.orderedInsert,
      revisionReplacement_setStatus, hs, he, hN]
  rw [hstep]
  refine ⟨?_, rfl⟩
  rw [happly, jsSubstring_zero_left T s h0 (le_trans hse hel),
    jsSubstringFrom_eq_drop T e (le_trans h0 hse) hel]

/-- Witness for C2 at the spec's concrete scenario 1 and 2. -/
theorem acceptRevision_single_splice_witness :
    (acceptRevision
        { baseContent := "The cat sat.".toList
          revisions := [createRevision 0 "The cat sat.".toList 4 7 "dog".toList 0]
          activeRevisionId := none }
        (createRevision 0 "The cat sat.".toList 4 7 "dog".toList 0).id).baseContent
      = "The cat sat.".toList.take (4 : Int).toNat ++ "dog".toList ++
          "The cat sat.".toList.drop (7 : Int).toNat ∧
    (acceptRevision
        { baseContent := "The cat sat.".toList
          revisions := [createRevision 0 "The cat sat.".toList 4 7 "dog".toList 0]
          activeRevisionId := none }
        (createRevision 0 "The cat sat.".toList 4 7 "dog".toList 0).id).revisions = [] :=
  acceptRevision_single_splice "The cat sat.".toList
    (createRevision 0 "The cat sat.".toList 4 7 "dog".toList 0) none 4 7 "dog".toList
    rfl rfl rfl rfl (by decide) (by decide) (by decide)

/-! ### Rejecting revisions -/

theorem filter_ne_id_eq_erase (r : Revision) (l : List Revision) (hmem : r ∈ l)
    (hnd : (l.map (fun x => x.id)).Nodup) :
    l.filter (fun x => decide (x.id ≠ r.id)) = l.erase r := by
  induction l with
  | nil => cases hmem
  | cons x xs ih =>
    rw [List.map_cons, List.nodup_cons] at hnd
    rcases List.mem_cons.mp hmem with hx | hx
    · subst hx
      rw [List.erase_cons_head, List.filter_cons_of_neg (by simp)]
      apply List.filter_eq_self.mpr
      intro a ha
      simp only [decide_eq_true_eq, ne_eq]
      intro hEq
      have hin : a.id ∈ xs.map (fun y => y.id) := List.mem_map_of_mem _ ha
      rw [hEq] at hin
      exact hnd.1 hin
    · have hxid : x.id ≠ r.id := by
        intro hEq
        have hin : r.id ∈ xs.map (fun y => y.id) := List.mem_map_of_mem _ hx
        rw [← hEq] at hin
        exact hnd.1 hin
      have hxr : ¬(x == r) = true := by
        simp only [beq_iff_eq]
        intro h
        exact hxid (congrArg Revision.id h)
      rw [List.filter_cons_of_pos (by simp [hxid]), List.erase_cons_tail hxr,
        ih hx hnd.2]

/-- C7: rejecting a present revision keeps `baseContent` and `activeRevisionId`
untouched and removes exactly that revision from the list (revision ids are
unique per the data model), so its id no longer appears. -/
theorem rejectRevision_frame (doc : DocumentWithRevisions) (r : Revision)
    (hmem : r ∈ doc.revisions)
    (hids : (doc.revisions.map (fun x => x.id)).Nodup) :
    (rejectRevision doc r.id).baseContent = doc.baseContent ∧
    (rejectRevision doc r.id).activeRevisionId = doc.activeRevisionId ∧
    (rejectRevision doc r.id).revisions = doc.revisions.erase r ∧
    r.id ∉ (rejectRevision doc r.id).revisions.map (fun x => x.id) := by
  refine ⟨rfl, rfl, filter_ne_id_eq_erase r doc.revisions hmem hids, ?_⟩
  intro hmm
  rcases List.mem_map.mp hmm with ⟨x, hxmem, hxid⟩
  simp only [rejectRevision] at hxmem
  have hx := (List.mem_filter.mp hxmem).2
  simp only [decide_eq_true_eq, ne_eq] at hx
  exact hx hxid

/-- Witness for C7 on a concrete two-revision document. -/
theorem rejectRevision_frame_witness :
    (rejectRevision docTwo revDog.id).baseContent = docTwo.baseContent ∧
    (rejectRevision docTwo revDog.id).activeRevisionId = docTwo.activeRevisionId ∧
    (rejectRevision docTwo revDog.id).revisions = docTwo.revisions.erase revDog ∧
    revDog.id ∉ (rejectRevision docTwo revDog.id).revisions.map (fun x => x.id) :=
  rejectRevision_frame docTwo revDog (by decide) (by decide)

/-- C8: accepting or rejecting an id that no revision carries is a silent no-op,
and rejecting any id twice is the same as rejecting it once, never touching
`baseContent`. -/
theorem unknownId_noop (doc : DocumentWithRevisions) (rid j : Nat)
    (habs : ∀ r ∈ doc.revisions, r.id ≠ rid) :
    acceptRevision doc rid = doc ∧
    rejectRevision doc rid = doc ∧
    rejectRevision (rejectRevision doc j) j = rejectRevision doc j ∧
    (rejectRevision doc j).baseContent = doc.baseContent := by
  refine ⟨?_, ?_, ?_, rfl⟩
  · have hfind : doc.revisions.find? (fun r => decide (r.id = rid)) = none := by
      apply List.find?_eq_none.mpr
      intro x hx
      simp [habs x hx]
    simp [acceptRevision, hfind]
  · have hfl : doc.revisions.filter (fun r => decide (r.id ≠ rid)) = doc.revisions := by
      apply List.filter_eq_self.mpr
      intro a ha
      simp [habs a ha]
    unfold rejectRevision
    rw [hfl]
  · simp [rejectRevision, List.filter_filter]

/-- Witness for C8: id 99 is carried by no revision of the concrete document. -/
theorem unknownId_noop_witness :
    acceptRevision docTwo 99 = docTwo ∧
    rejectRevision docTwo 99 = docTwo ∧
    rejectRevision (rejectRevision docTwo 0) 0 = rejectRevision docTwo 0 ∧
    (rejectRevision docTwo 0).baseContent = docTwo.baseContent :=
  unknownId_noop docTwo 99 0 (by decide)

/-! ### Totality and substring semantics of createRevision -/

/-- C10: `createRevision` is a total function: for every content string, every
pair of integer bounds (clamped to `[0, length]` and swapped when reversed, as
JavaScript `substring` does) and every replacement, it returns a pending
revision capturing the selected substring, whose `newSpan` is absent exactly
when the replacement is empty. -/
theorem createRevision_total (gen : Nat) (content : Str) (s e : Int)
    (newText : Str) (now : Int) :
    (createRevision gen content s e newText now).status = RevStatus.pending ∧
    (createRevision gen content s e newText now).originalSpan.text =
      (content.drop
          (min (min (max s 0) (content.length : Int))
            (min (max e 0) (content.length : Int))).toNat).take
        ((max (min (max s 0) (content.length : Int))
            (min (max e 0) (content.length : Int)) -
          min (min (max s 0) (content.length : Int))
            (min (max e 0) (content.length : Int))).toNat) ∧
    (createRevision gen content s e newText now).originalSpan.text =
      (createRevision gen content e s newText now).originalSpan.text ∧
    ((createRevision gen content s e newText now).newSpan = none ↔ newText = []) ∧
    (createRevision gen content s e newText now).originalSpan.startPos = s ∧
    (createRevision gen content s e newText now).originalSpan.endPos = e := by
  refine ⟨rfl, rfl, ?_, ?_, rfl, rfl⟩
  · show jsSubstring content s e = jsSubstring content e s
    unfold jsSubstring
    rw [min_comm (jsClamp (content.length : Int) s) (jsClamp (content.length : Int) e),
      max_comm (jsClamp (content.length : Int) s) (jsClamp (content.length : Int) e)]
  · by_cases h : newText = [] <;> simp [createRevision, h]

/-! ### Accept-all and the stale-offset divergence -/

/-- C1 counterexample: two pending revisions with disjoint in-bounds ranges on
which `acceptAllRevisions` (which folds in list order over stale offsets) and
the sequential descending-start accepts of the claim produce different base
content ("Xx defg Yy" versus "Xx defgYyj"). -/
theorem acceptAll_desc_counterexample :
    revXx.status = RevStatus.pending ∧ revYy.status = RevStatus.pending ∧
    revXx.originalSpan.endPos ≤ revYy.originalSpan.startPos ∧
    0 ≤ revXx.originalSpan.startPos ∧
    revYy.originalSpan.endPos ≤ (mergeText.length : Int) ∧
    (acceptAllRevisions docMerge).baseContent ≠
      (sequentialAcceptDesc docMerge).baseContent := by
  refine ⟨rfl, rfl, by decide, by decide, by decide, ?_⟩
  decide

theorem foldl_accept_of_pending (l : List Revision) :
    ∀ d : DocumentWithRevisions, (∀ r ∈ l, r.status = RevStatus.pending) →
      l.foldl
        (fun result revision =>
          if revision.status = RevStatus.pending then acceptRevision result revision.id
          else result) d
      = l.foldl (fun result revision => acceptRevision result revision.id) d := by
  induction l with
  | nil => intro d h; rfl
  | cons x xs ih =>
    intro d h
    simp only [List.foldl_cons]
    rw [if_pos (h x (List.mem_cons_self x xs))]
    exact ih _ (fun r hr => h r (List.mem_cons_of_mem x hr))

/-- C1 amended: when the document's pending, mutually non-overlapping revisions
are listed in descending `startPos` order, `acceptAllRevisions` produces the
same base content as accepting them one at a time in descending-start order. -/
theorem acceptAll_eq_seqDesc_of_sortedDesc (doc : DocumentWithRevisions)
    (hpend : ∀ r ∈ doc.revisions, r.status = RevStatus.pending)
    (hsorted : doc.revisions.Pairwise
      (fun a b => b.originalSpan.startPos ≤ a.originalSpan.startPos))
    (hsep : ∀ a ∈ doc.revisions, ∀ b ∈ doc.revisions, a ≠ b →
      a.originalSpan.endPos ≤ b.originalSpan.startPos ∨
        b.originalSpan.endPos ≤ a.originalSpan.startPos) :
    (acceptAllRevisions doc).baseContent = (sequentialAcceptDesc doc).baseContent := by
  have hss : sortByStartDesc doc.revisions = doc.revisions := by
    unfold sortByStartDesc
    exact List.Sorted.insertionSort_eq hsorted
  unfold acceptAllRevisions sequentialAcceptDesc
  rw [hss, foldl_accept_of_pending doc.revisions doc hpend]

/-- Witness for the amended C1 on the descending-ordered scenario-4 document. -/
theorem acceptAll_eq_seqDesc_witness :
    (acceptAllRevisions docMergeDesc).baseContent =
      (sequentialAcceptDesc docMergeDesc).baseContent :=
  acceptAll_eq_seqDesc_of_sortedDesc docMergeDesc (by decide) (by decide) (by decide)

/-- C6 counterexample: on the spec's scenario 4 the code does not produce the
spec's claimed "Xx defgYy". -/
theorem acceptAll_scenario4_counterexample :
    revXx.status = RevStatus.pending ∧ revYy.status = RevStatus.pending ∧
    (acceptAllRevisions docMerge).baseContent ≠ "Xx defgYy".toList := by
  refine ⟨rfl, rfl, ?_⟩
  decide

/-- C6 amended: accepting all revisions of the scenario-4 document (revisions
in creation order) actually yields "Xx defg Yy": the second splice is applied
with its stale `[8,11)` offsets against the already-shortened text. -/
theorem acceptAll_scenario4_actual :
    (acceptAllRevisions docMerge).baseContent = "Xx defg Yy".toList := by
  decide

/-! ### The pending-only invariant of reachable states -/

theorem allPending_acceptRevision (d : DocumentWithRevisions) (rid : Nat)
    (h : allPending d) : allPending (acceptRevision d rid) := by
  unfold acceptRevision
  cases hf : d.revisions.find? (fun r => decide (r.id = rid)) with
  | none => exact h
  | some r0 =>
    intro x hx
    simp only [List.mem_filter] at hx
    obtain ⟨hx1, hx2⟩ := hx
    simp only [decide_eq_true_eq, ne_eq] at hx2
    rcases List.mem_map.mp hx1 with ⟨y, hy, hxy⟩
    by_cases hid : y.id = rid
    · rw [if_pos hid] at hxy
      exact absurd (by rw [← hxy]) hx2
    · rw [if_neg hid] at hxy
      rw [← hxy]
      exact h y hy

theorem allPending_foldlAccept (l : List Revision) :
    ∀ d : DocumentWithRevisions, allPending d →
      allPending (l.foldl
        (fun result revision =>
          if revision.status = RevStatus.pending then acceptRevision result revision.id
          else result) d) := by
  induction l with
  | nil => intro d h; exact h
  | cons x xs ih =>
    intro d h
    simp only [List.foldl_cons]
    by_cases hx : x.status = RevStatus.pending
    · rw [if_pos hx]
      exact ih _ (allPending_acceptRevision d x.id h)
    · rw [if_neg hx]
      exact ih _ h

theorem allPending_rejectRevision (d : DocumentWithRevisions) (rid : Nat)
    (h : allPending d) : allPending (rejectRevision d rid) :=
  fun x hx => h x (List.mem_of_mem_filter hx)

theorem allPending_rejectAll (d : DocumentWithRevisions)
    (h : allPending d) : allPending (rejectAllRevisions d) :=
  fun x hx => h x (List.mem_of_mem_filter hx)

theorem allPending_insert (d : DocumentWithRevisions) (gen : Nat) (content : Str)
    (s e : Int) (newText : Str) (now : Int) (h : allPending d) :
    allPending (insertRevision d (createRevision gen content s e newText now)) := by
  intro x hx
  rcases List.mem_append.mp hx with hx | hx
  · exact h x hx
  · rw [List.mem_singleton] at hx
    rw [hx]
    rfl

/-- C3: in every state reachable from an empty-revision initial state by the
five operations, every held revision is pending — no accepted or rejected
revision is ever observable in the list. -/
theorem reachable_allPending (d : DocumentWithRevisions) (h : Reachable d) :
    d.revisions.all (fun r => decide (r.status = RevStatus.pending)) = true := by
  have hp : allPending d := by
    induction h with
    | init T act => intro x hx; cases hx
    | insert d gen content s e newText now h ih =>
      exact allPending_insert d gen content s e newText now ih
    | accept d rid h ih => exact allPending_acceptRevision d rid ih
    | reject d rid h ih => exact allPending_rejectRevision d rid ih
    | acceptAll d h ih => exact allPending_foldlAccept d.revisions d ih
    | rejectAll d h ih => exact allPending_rejectAll d ih
  rw [List.all_eq_true]
  intro x hx
  exact decide_eq_true (hp x hx)

/-- Witness for C3: a concrete reachable state after one insert and one accept. -/
theorem reachable_allPending_witness :
    (acceptRevision
        (insertRevision { baseContent := catText, revisions := [], activeRevisionId := none }
          revDog)
        revDog.id).revisions.all
      (fun r => decide (r.status = RevStatus.pending)) = true :=
  reachable_allPending _
    (Reachable.accept _ _
      (Reachable.insert _ 0 catText 4 7 "dog".toList 0 (Reachable.init catText none)))

/-! ### Context transcript markers -/

theorem pendingSpans_mem_buildSpansGo (T : Str) (r : Revision)
    (hp : r.status = RevStatus.pending) :
    ∀ (l : List Revision) (c : Int) (n : Nat), r ∈ l →
      { r.originalSpan with type := SpanType.deleted } ∈ buildSpansGo T l c n ∧
      ∀ ns, r.newSpan = some ns →
        { ns with type := SpanType.inserted } ∈ buildSpansGo T l c n := by
  intro l
  induction l with
  | nil => intro c n h; cases h
  | cons x xs ih =>
    intro c n hmem
    rcases List.mem_cons.mp hmem with hx | hx
    · subst hx
      unfold buildSpansGo
      rw [if_neg (by simp [hp]), if_neg (by simp [hp])]
      constructor
      · exact List.mem_append_left _ (List.mem_append_right _ (List.mem_cons_self _ _))
      · intro ns hns
        rw [hns]
        exact List.mem_append_left _
          (List.mem_append_right _ (List.mem_cons_of_mem _ (List.mem_cons_self _ _)))
    · unfold buildSpansGo
      by_cases hrej : x.status = RevStatus.rejected
      · rw [if_pos hrej]
        exact ih c n hx
      · rw [if_neg hrej]
        by_cases hacc : x.status = RevStatus.accepted
        · rw [if_pos hacc]
          obtain ⟨ih1, ih2⟩ := ih x.originalSpan.endPos
            (n + (unchangedBefore T c x.originalSpan.startPos n).length) hx
          exact ⟨List.mem_append_right _ ih1,
            fun ns hns => List.mem_append_right _ (ih2 ns hns)⟩
        · rw [if_neg hacc]
          obtain ⟨ih1, ih2⟩ := ih x.originalSpan.endPos
            (n + (unchangedBefore T c x.originalSpan.startPos n).length) hx
          exact ⟨List.mem_append_right _ ih1,
            fun ns hns => List.mem_append_right _ (ih2 ns hns)⟩

theorem containsSeg_of_mem_map_flatten (f : TextSpan → Str) (sp : TextSpan)
    (l : List TextSpan) (h : sp ∈ l) :
    containsSeg (f sp) ((l.map f).flatten) := by
  rcases List.append_of_mem h with ⟨u, v, huv⟩
  refine ⟨(u.map f).flatten, (v.map f).flatten, ?_⟩
  rw [huv]
  simp

/-- C9: the full-context transcript is the concatenation of the rendered spans,
so for every pending revision it contains the `[DELETED: ...]` marker of the
original span and, when a `newSpan` is present, the `[INSERTED: ...]` marker of
the replacement. -/
theorem contextContent_markers (doc : DocumentWithRevisions) (r : Revision)
    (hmem : r ∈ doc.revisions) (hp : r.status = RevStatus.pending) :
    containsSeg ("[DELETED: ".toList ++ r.originalSpan.text ++ "]".toList)
      (getFullContextContent doc) ∧
    (match r.newSpan with
     | some ns =>
        containsSeg ("[INSERTED: ".toList ++ ns.text ++ "]".toList)
          (getFullContextContent doc)
     | none => True) := by
  have hmem2 : r ∈ sortByStartAsc doc.revisions := by
    unfold sortByStartAsc
    exact (List.mem_insertionSort startLE).mpr hmem
  obtain ⟨hdel, hins⟩ :=
    pendingSpans_mem_buildSpansGo doc.baseContent r hp (sortByStartAsc doc.revisions) 0 0 hmem2
  constructor
  · have hc := containsSeg_of_mem_map_flatten renderContextSpan _ _ hdel
    rw [show renderContextSpan { r.originalSpan with type := SpanType.deleted } =
        "[DELETED: ".toList ++ r.originalSpan.text ++ "]".toList from rfl] at hc
    exact hc
  · cases hns : r.newSpan with
    | none => trivial
    | some ns =>
      have hc := containsSeg_of_mem_map_flatten renderContextSpan _ _ (hins ns hns)
      rw [show renderContextSpan { ns with type := SpanType.inserted } =
          "[INSERTED: ".toList ++ ns.text ++ "]".toList from rfl] at hc
      exact hc

/-- Witness for C9 on the concrete two-revision document. -/
theorem contextContent_markers_witness :
    containsSeg ("[DELETED: ".toList ++ revDog.originalSpan.text ++ "]".toList)
      (getFullContextContent docTwo) ∧
    containsSeg ("[INSERTED: ".toList ++ "dog".toList ++ "]".toList)
      (getFullContextContent docTwo) :=
  contextContent_markers docTwo revDog (by decide) rfl

/-! ### Exact coverage of base positions by unchanged and deleted spans -/

theorem covers_unchangedSpan (p a b : Int) (txt : Str) (n : Nat) :
    covers p { id := n, type := SpanType.unchanged, text := txt, startPos := a, endPos := b } ↔
      a ≤ p ∧ p < b := by
  simp [covers]

theorem covers_deletedSpan (p : Int) (sp : TextSpan) :
    covers p { sp with type := SpanType.deleted } ↔
      sp.startPos ≤ p ∧ p < sp.endPos := by
  simp [covers]

theorem covers_insertedSpan (p : Int) (sp : TextSpan) :
    ¬ covers p { sp with type := SpanType.inserted } := by
  simp [covers]

theorem countP_unchangedBefore (T : Str) (c s : Int) (n : Nat) (p : Int) :
    (unchangedBefore T c s n).countP (fun sp => decide (covers p sp)) =
      if c ≤ p ∧ p < s then 1 else 0 := by
  unfold unchangedBefore
  by_cases h : c < s
  · rw [if_pos h, List.countP_cons, List.countP_nil]
    simp only [decide_eq_true_eq, covers_unchangedSpan]
    split_ifs <;> omega
  · rw [if_neg h, if_neg (by omega)]
    exact List.countP_nil _

theorem countP_insOption (x : Revision) (p : Int) :
    (match x.newSpan with
      | some ns => [{ ns with type := SpanType.inserted }]
      | none => ([] : List TextSpan)).countP (fun sp => decide (covers p sp)) = 0 := by
  cases x.newSpan with
  | none => rfl
  | some ns =>
    rw [List.countP_cons, List.countP_nil]
    simp only [decide_eq_true_eq]
    rw [if_neg (covers_insertedSpan p ns)]

theorem buildSpansGo_countP (T : Str) :
    ∀ (l : List Revision) (c : Int) (n : Nat) (p : Int),
      (∀ r ∈ l, r.status = RevStatus.pending ∨ r.status = RevStatus.rejected) →
      (∀ r ∈ l, c ≤ r.originalSpan.startPos ∧
        r.originalSpan.startPos ≤ r.originalSpan.endPos ∧
        r.originalSpan.endPos ≤ (T.length : Int)) →
      l.Pairwise (fun a b => a.originalSpan.endPos ≤ b.originalSpan.startPos) →
      0 ≤ c →
      (buildSpansGo T l c n).countP (fun sp => decide (covers p sp)) =
        if c ≤ p ∧ p < (T.length : Int) then 1 else 0 := by
  intro l
  induction l with
  | nil =>
    intro c n p _ _ _ hc
    unfold buildSpansGo
    by_cases h : c < (T.length : Int)
    · rw [if_pos h, List.countP_cons, List.countP_nil]
      simp only [decide_eq_true_eq, covers_unchangedSpan]
      split_ifs <;> omega
    · rw [if_neg h, if_neg (by omega)]
      exact List.countP_nil _
  | cons x xs ih =>
    intro c n p hstat hrange hpair hc
    obtain ⟨hcs, hse, hel⟩ := hrange x (List.mem_cons_self x xs)
    have htail : ∀ r ∈ xs, x.originalSpan.endPos ≤ r.originalSpan.startPos :=
      fun r hr => List.rel_of_pairwise_cons hpair hr
    have hrange2 : ∀ r ∈ xs, x.originalSpan.endPos ≤ r.originalSpan.startPos ∧
        r.originalSpan.startPos ≤ r.originalSpan.endPos ∧
        r.originalSpan.endPos ≤ (T.length : Int) :=
      fun r hr => ⟨htail r hr, (hrange r (List.mem_cons_of_mem x hr)).2⟩
    have hstat2 : ∀ r ∈ xs, r.status = RevStatus.pending ∨ r.status = RevStatus.rejected :=
      fun r hr => hstat r (List.mem_cons_of_mem x hr)
    have hpair2 := List.Pairwise.of_cons hpair
    rcases hstat x (List.mem_cons_self x xs) with hpend | hrej
    · unfold buildSpansGo
      rw [if_neg (by simp [hpend]), if_neg (by simp [hpend])]
      rw [List.countP_append, List.countP_append, List.countP_cons]
      rw [countP_unchangedBefore, countP_insOption,
        ih x.originalSpan.endPos _ p hstat2 hrange2 hpair2 (by omega)]
      simp only [decide_eq_true_eq, covers_deletedSpan]
      split_ifs <;> omega
    · unfold buildSpansGo
      rw [if_pos hrej]
      exact ih c n p hstat2
        (fun r hr => ⟨(hrange r (List.mem_cons_of_mem x hr)).1,
          (hrange r (List.mem_cons_of_mem x hr)).2⟩)
        hpair2 hc

/-- C4 counterexample: a revision with status `accepted` (allowed by the
claim's "any mix of statuses") leaves the base positions of its original range
covered by no `unchanged` or `deleted` span: position 0 of "ab" under the
accepted revision `[0,1) → "X"` is covered zero times, not once. -/
theorem spanCover_counterexample :
    0 ≤ revAcc.originalSpan.startPos ∧
    revAcc.originalSpan.startPos ≤ revAcc.originalSpan.endPos ∧
    revAcc.originalSpan.endPos ≤ ("ab".toList.length : Int) ∧
    (buildTextSpans "ab".toList [revAcc]).countP
      (fun sp => decide (covers 0 sp)) ≠ 1 := by
  refine ⟨by decide, by decide, by decide, by decide⟩

/-- C4 amended: for revisions of status pending or rejected whose in-bounds
ranges are mutually non-overlapping (in ascending-start order each range ends
at or before the next begins), every base-text position is covered by exactly
one emitted span of kind `unchanged` or `deleted`. -/
theorem buildTextSpans_exact_cover (T : Str) (rs : List Revision) (p : Int)
    (hstat : ∀ r ∈ rs, r.status = RevStatus.pending ∨ r.status = RevStatus.rejected)
    (hrange : ∀ r ∈ rs, 0 ≤ r.originalSpan.startPos ∧
      r.originalSpan.startPos ≤ r.originalSpan.endPos ∧
      r.originalSpan.endPos ≤ (T.length : Int))
    (hsep : (sortByStartAsc rs).Pairwise
      (fun a b => a.originalSpan.endPos ≤ b.originalSpan.startPos))
    (h0 : 0 ≤ p) (hlen : p < (T.length : Int)) :
    (buildTextSpans T rs).countP (fun sp => decide (covers p sp)) = 1 := by
  have hmem : ∀ r ∈ sortByStartAsc rs, r ∈ rs := fun r hr =>
    (List.mem_insertionSort startLE).mp hr
  have hgo := buildSpansGo_countP T (sortByStartAsc rs) 0 0 p
    (fun r hr => hstat r (hmem r hr))
    (fun r hr => hrange r (hmem r hr))
    hsep le_rfl
  have hbt : buildTextSpans T rs = buildSpansGo T (sortByStartAsc rs) 0 0 := rfl
  rw [hbt, hgo, if_pos ⟨h0, hlen⟩]

/-- Witness for the amended C4: position 5 of the one-revision document is
covered exactly once. -/
theorem buildTextSpans_exact_cover_witness :
    (buildTextSpans catText [revDog]).countP (fun sp => decide (covers 5 sp)) = 1 :=
  buildTextSpans_exact_cover catText [revDog] 5 (by decide) (by decide) (by decide)
    (by decide) (by decide)

end RevisionSystem
